import Mathlib

/-!
Shallow embedding of the modal-dialog manager in src/index.js.

The manager keeps a stack of open modal ids, a metadata table keyed by id,
a transition flag, a history-sync flag, body-scroll state, the set of
attached backdrop click listeners, and a queue of deferred callbacks
(the setTimeout calls that complete an open or close after the animation
duration).  We model the browser timer queue explicitly: each setTimeout
records an absolute fire time and a monotone sequence number, and firing
always runs the pending callback with the least (fireAt, seq), which is
exactly the browser's ordering (FIFO among equal durations scheduled at
the same instant).

DOM specifics that the manager merely reads (which container ids exist,
which element inside a modal would receive focus) are supplied by an
environment.  Dispatched custom events are recorded in an append-only log.
-/

namespace Modal

/-- A JavaScript value as far as the manager inspects one: the payload
passed at open time is only ever tested for truthiness (`getData` returns
`__meta[id]?.data || null`). -/
inductive JSVal where
  | vNull : JSVal
  | vBool : Bool → JSVal
  | vNum : Int → JSVal
  | vStr : String → JSVal
deriving DecidableEq, Repr

/-- JavaScript truthiness of a `JSVal`. -/
def truthy : JSVal → Bool
  | .vNull => false
  | .vBool b => b
  | .vNum n => n != 0
  | .vStr s => s != ""

/-- One metadata record, `__meta[id]` in the source: options resolved with
their defaults, the opener element captured for focus restoration, the
animation duration and the payload. -/
structure Entry where
  focus : Bool
  closable : Bool
  backdropClose : Bool
  opener : Option Nat
  duration : Nat
  data : JSVal
deriving DecidableEq, Repr

/-- The `options` argument of `open`: a JS object in which each recognized
property may be absent (`none`), in which case the destructuring default
applies. -/
structure Options where
  focus : Option Bool := none
  closable : Option Bool := none
  backdropClose : Option Bool := none
  data : Option JSVal := none
  duration : Option Nat := none
deriving DecidableEq, Repr

/-- Options of an `open` called with no options object (all defaults). -/
def noOpts : Options := {}

/-- A backdrop click listener created by `open`: `uid` models function
identity (each `open` creates a fresh closure), `targetId` the backdrop it
is attached to, `backdropClose` the flag captured by the closure. -/
structure Handler where
  uid : Nat
  targetId : String
  backdropClose : Bool
deriving DecidableEq, Repr

/-- A deferred callback: the body of one of the two `setTimeout` calls,
together with the values its closure captured. -/
inductive Job where
  | openedJob : String → JSVal → Bool → Job        -- id, data, focus
  | closedJob : String → Option Nat → JSVal → Job  -- id, opener, data
deriving DecidableEq, Repr

/-- A pending timer: absolute fire time, scheduling sequence number
(monotone, used to break ties the way the event loop does), and the job. -/
structure Timer where
  fireAt : Nat
  seq : Nat
  job : Job
deriving DecidableEq, Repr

/-- The four custom events `dispatch` can emit, with the id and data they
carry in `detail`. -/
inductive Ev where
  | openEv : String → JSVal → Ev
  | openedEv : String → JSVal → Ev
  | closeEv : String → JSVal → Ev
  | closedEv : String → JSVal → Ev
deriving DecidableEq, Repr

/-- The id an event refers to. -/
def evId : Ev → String
  | .openEv i _ => i
  | .openedEv i _ => i
  | .closeEv i _ => i
  | .closedEv i _ => i

/-- Is an event a `wab.modal.close` event? -/
def isCloseEv : Ev → Bool
  | .closeEv _ _ => true
  | _ => false

/-- Is an event the `wab.modal.close` event of a given id? -/
def isCloseFor (id : String) : Ev → Bool
  | .closeEv i _ => i == id
  | _ => false

/-- Is an event the `wab.modal.closed` event of a given id? -/
def isClosedFor (id : String) : Ev → Bool
  | .closedEv i _ => i == id
  | _ => false

/-! ### Association lists

A JS plain object used as a table (`__meta`, and the
`backdrop.__wabModalClickHandler` expando properties collectively) is an
association list with insertion-ordered unique keys: assignment replaces
in place or appends, `delete` removes the key. -/

/-- Lookup, `obj[k]` (or `obj[k]?.prop` guards). -/
def alLookup {α : Type} : List (String × α) → String → Option α
  | [], _ => none
  | (k, v) :: rest, key => if k = key then some v else alLookup rest key

/-- Assignment `obj[k] = v`: replace in place if the key exists, else
append. -/
def alSet {α : Type} : List (String × α) → String → α → List (String × α)
  | [], key, v => [(key, v)]
  | (k, w) :: rest, key, v =>
    if k = key then (key, v) :: rest else (k, w) :: alSet rest key v

/-- Deletion, `delete obj[k]`: remove the key (first occurrence; keys are unique in
every table the code builds). -/
def alErase {α : Type} : List (String × α) → String → List (String × α)
  | [], _ => []
  | (k, w) :: rest, key => if k = key then rest else (k, w) :: alErase rest key

/-- The keys of a table, in insertion order. -/
def alKeys {α : Type} (l : List (String × α)) : List String := l.map Prod.fst

/-! ### Manager state and environment -/

/-- The whole mutable state of the manager, plus the pieces of browser
state it drives (body overflow, the `open` class, history depth, the
focused element) and the log of dispatched events. -/
structure St where
  stack : List String                 -- __stack
  meta : List (String × Entry)        -- __meta
  popped : Bool                       -- __popped
  transitioning : Bool                -- __transitioning
  overflowHidden : Bool               -- document.body.style.overflow == "hidden"
  openCls : List String               -- ids whose backdrop has class "open"
  handlers : List Handler             -- click listeners attached to backdrops
  prop : List (String × Nat)          -- backdrop.__wabModalClickHandler (by uid)
  histDepth : Nat                     -- history length contributed by pushState
  active : Option Nat                 -- document.activeElement
  now : Nat                           -- current time (ms)
  nextSeq : Nat                       -- next timer sequence number
  nextUid : Nat                       -- next fresh closure identity
  timers : List Timer                 -- pending setTimeout callbacks
  events : List Ev                    -- dispatched events, in dispatch order
deriving DecidableEq, Repr

/-- The page as the manager sees it: which container ids exist
(`document.getElementById`), and for each id the element that the `opened`
callback's focus logic would focus (the `[autofocus]` element, else the
first focusable element, else none). -/
structure Env where
  dom : List String
  autofocus : String → Option Nat

/-- The pristine state of the page: nothing open, nothing pending. -/
def st0 : St :=
  { stack := [], meta := [], popped := false, transitioning := false
    overflowHidden := false, openCls := [], handlers := [], prop := []
    histDepth := 0, active := none, now := 0, nextSeq := 0, nextUid := 0
    timers := [], events := [] }

/-- Default transition duration, `__duration`. -/
def defaultDuration : Nat := 300

/-! ### Operations, transcribed from src/index.js -/

/-- The function `open(id, options)`, synchronous part (src/index.js lines 72-122):
no-op when the container does not exist; otherwise push a history entry,
reset the flags, resolve the option defaults, capture the opener, store
the metadata, push the id, dispatch `wab.modal.open`, mark the container
visible, hide body overflow, attach the backdrop click listener, and
schedule the `opened` completion after `duration`. -/
def openStep (env : Env) (id : String) (opts : Options) (s : St) : St :=
  if id ∈ env.dom then
    let focus := opts.focus.getD true
    let closable := opts.closable.getD true
    let backdropClose := opts.backdropClose.getD true
    let data := opts.data.getD JSVal.vNull
    let duration := opts.duration.getD defaultDuration
    { s with
      histDepth := s.histDepth + 1
      popped := false
      transitioning := true
      meta := alSet s.meta id
        { focus := focus, closable := closable, backdropClose := backdropClose
          opener := s.active, duration := duration, data := data }
      stack := s.stack ++ [id]
      events := s.events ++ [Ev.openEv id data]
      openCls := if id ∈ s.openCls then s.openCls else s.openCls ++ [id]
      overflowHidden := true
      handlers := s.handlers ++ [⟨s.nextUid, id, backdropClose⟩]
      prop := alSet s.prop id s.nextUid
      nextUid := s.nextUid + 1
      timers := s.timers ++ [⟨s.now + duration, s.nextSeq, Job.openedJob id data focus⟩]
      nextSeq := s.nextSeq + 1 }
  else s

/-- The function `__close(id, popstate)`, synchronous part (src/index.js lines 156-198):
no-op when the container or the metadata entry does not exist; otherwise
set the transition flag, dispatch `wab.modal.close`, drop the `open`
class, restore body overflow only if the stack is empty (the stack still
holds `id` here: removal is deferred), detach the stored click listener,
step history back unless popstate-triggered, and schedule the `closed`
completion after the stored duration. -/
def closeImpl (env : Env) (id : String) (popstate : Bool) (s : St) : St :=
  if id ∈ env.dom then
    match alLookup s.meta id with
    | none => s
    | some e =>
      { s with
        transitioning := true
        events := s.events ++ [Ev.closeEv id e.data]
        openCls := s.openCls.filter (fun c => c ≠ id)
        overflowHidden := if s.stack.length = 0 then false else s.overflowHidden
        handlers := match alLookup s.prop id with
          | some uid => s.handlers.filter (fun h => h.uid ≠ uid)
          | none => s.handlers
        prop := match alLookup s.prop id with
          | some _ => alErase s.prop id
          | none => s.prop
        histDepth := if popstate then s.histDepth else s.histDepth - 1
        timers := s.timers ++ [⟨s.now + e.duration, s.nextSeq, Job.closedJob id e.opener e.data⟩]
        nextSeq := s.nextSeq + 1 }
  else s

/-- The function `close(id)` (src/index.js lines 146-148). -/
def close (env : Env) (id : String) (s : St) : St := closeImpl env id false s

/-- The `__meta[topModalId]?.closable !== false` test of `__closeTop`. -/
def escClosable (s : St) (id : String) : Bool :=
  match alLookup s.meta id with
  | some e => e.closable
  | none => true

/-- The function `__closeTop(popstate)` (src/index.js lines 205-212): if the stack is
nonempty and the top entry's `closable` is not explicitly false, close the
top entry; otherwise do nothing. -/
def closeTopImpl (env : Env) (popstate : Bool) (s : St) : St :=
  match s.stack.getLast? with
  | none => s
  | some top => if escClosable s top then closeImpl env top popstate s else s

/-- The function `closeTop()` (src/index.js lines 217-219). -/
def closeTop (env : Env) (s : St) : St := closeTopImpl env false s

/-- The function `closeAll()` (src/index.js lines 224-227): snapshot the stack, reverse
it, and call `close` on each id. -/
def closeAllStep (env : Env) (s : St) : St :=
  s.stack.reverse.foldl (fun st id => close env id st) s

/-- The function `getData(id)` (src/index.js lines 234-236): `__meta[id]?.data || null`.
A falsy stored payload therefore comes back as null. -/
def getData (s : St) (id : String) : JSVal :=
  match alLookup s.meta id with
  | none => JSVal.vNull
  | some e => if truthy e.data then e.data else JSVal.vNull

/-- The body of one deferred callback.  For `openedJob` (src/index.js
lines 124-138): clear the transition flag, move focus if requested and a
focusable element exists, dispatch `wab.modal.opened`.  For `closedJob`
(src/index.js lines 185-198): clear the transition flag, delete the
metadata entry, splice the id out of the stack, restore focus to the
opener if the stack is now empty, dispatch `wab.modal.closed`. -/
def runJob (env : Env) (j : Job) (s : St) : St :=
  match j with
  | .openedJob id data focus =>
    { s with
      transitioning := false
      active := if focus then
          match env.autofocus id with
          | some el => some el
          | none => s.active
        else s.active
      events := s.events ++ [Ev.openedEv id data] }
  | .closedJob id opener data =>
    let stack' := s.stack.erase id
    { s with
      transitioning := false
      meta := alErase s.meta id
      stack := stack'
      active := match opener with
        | some el => if stack'.length = 0 then some el else s.active
        | none => s.active
      events := s.events ++ [Ev.closedEv id data] }

/-- Timer priority: earlier fire time first, scheduling order among equal
fire times — the event loop's ordering of timer callbacks. -/
def timerLE (a b : Timer) : Bool :=
  decide (a.fireAt < b.fireAt) ||
    (decide (a.fireAt = b.fireAt) && decide (a.seq ≤ b.seq))

/-- Extract the highest-priority pending timer and the remaining queue. -/
def extractMin : List Timer → Option (Timer × List Timer)
  | [] => none
  | t :: ts =>
    match extractMin ts with
    | none => some (t, [])
    | some (m, rest) => if timerLE t m then some (t, ts) else some (m, t :: rest)

/-- Let the next due timer fire: run the pending callback with least
(fireAt, seq), advancing the clock to its fire time. -/
def fireStep (env : Env) (s : St) : St :=
  match extractMin s.timers with
  | none => s
  | some (t, rest) =>
    runJob env t.job { s with timers := rest, now := max s.now t.fireAt }

/-- Run a click listener list the way event dispatch does: listeners
attached to the clicked backdrop run in attach order, and a listener
removed by an earlier one no longer runs.  `onBackdrop` is whether the
click's target is the container itself (true) or an element inside the
modal content (false); each listener is the closure
`if (e.target === backdrop && backdropClose) close(id)`. -/
def clickStep (env : Env) (b : String) (onBackdrop : Bool) (s : St) : St :=
  (s.handlers.filter (fun h => h.targetId = b)).foldl
    (fun st h =>
      if st.handlers.contains h && onBackdrop && h.backdropClose then
        close env h.targetId st
      else st) s

/-- One externally triggered step: an API call, a user gesture routed to a
listener, or the firing of the next due timer. -/
inductive Act where
  | openA : String → Options → Act
  | closeA : String → Act
  | closeTopA : Act
  | escA : Act
  | closeAllA : Act
  | clickA : String → Bool → Act
  | fireA : Act

/-- Interpretation of one step.  `escA` is the global keydown listener
(src/index.js lines 54-56): ignored while a transition is in progress. -/
def step (env : Env) (s : St) : Act → St
  | .openA id opts => openStep env id opts s
  | .closeA id => close env id s
  | .closeTopA => closeTop env s
  | .escA => if s.transitioning then s else closeTop env s
  | .closeAllA => closeAllStep env s
  | .clickA b onB => clickStep env b onB s
  | .fireA => fireStep env s

/-- Run a sequence of steps. -/
def run (env : Env) (s : St) : List Act → St
  | [] => s
  | a :: rest => run env (step env s a) rest

/-- Fire the next `n` due timers. -/
def drainN (env : Env) : Nat → St → St
  | 0, s => s
  | n + 1, s => drainN env n (fireStep env s)

/-- Guard used by `safeTrace`: an open must not target an id that is
currently on the stack; every other action is always allowed. -/
def actGuard (s : St) : Act → Bool
  | .openA id _ => !(s.stack.contains id)
  | _ => true

/-- A trace is duplicate-free when no `open` in it targets an id that is
on the stack at that moment. -/
def safeTrace (env : Env) : St → List Act → Bool
  | _, [] => true
  | s, a :: rest => actGuard s a && safeTrace env (step env s a) rest

/-- A quiescent well-formed state: the metadata keys coincide with the
stack (in order), the stack has no duplicates, every open id has an
existing container, and no deferred callback is pending. -/
def wf (env : Env) (s : St) : Bool :=
  (alKeys s.meta == s.stack) && s.stack.Nodup &&
    s.stack.all (fun id => env.dom.contains id) && s.timers.isEmpty

/-- A concrete page with two modal containers and no focusable content,
used for concrete evaluations. -/
def env0 : Env := { dom := ["a", "b"], autofocus := fun _ => none }

/-- The id a job refers to. -/
def jobIdOf : Job → String
  | .openedJob i _ _ => i
  | .closedJob i _ _ => i

/-- Is a job the deferred completion of a close? -/
def isClosedJob : Job → Bool
  | .closedJob _ _ _ => true
  | _ => false

/-- The payload stored for an id, null if absent. -/
def dataOf (m : List (String × Entry)) (id : String) : JSVal :=
  match alLookup m id with
  | some e => e.data
  | none => JSVal.vNull

/-- The stored duration for an id, the default if absent. -/
def durOf (m : List (String × Entry)) (id : String) : Nat :=
  match alLookup m id with
  | some e => e.duration
  | none => defaultDuration

/-- The stored opener for an id, none if absent. -/
def openerOf (m : List (String × Entry)) (id : String) : Option Nat :=
  match alLookup m id with
  | some e => e.opener
  | none => none

/-- The timers that closing each id of `l` in order schedules, starting
from sequence number `q` at time `now`, reading durations, openers and
payloads from the metadata table `m`. -/
def closedJobsFor (m : List (String × Entry)) (now : Nat) : Nat → List String → List Timer
  | _, [] => []
  | q, id :: rest =>
    ⟨now + durOf m id, q, Job.closedJob id (openerOf m id) (dataOf m id)⟩ ::
      closedJobsFor m now (q + 1) rest

/-! ### Association list lemmas -/

theorem alKeys_nil {α : Type} : alKeys ([] : List (String × α)) = [] := rfl

theorem alKeys_cons {α : Type} (a : String) (w : α) (rest : List (String × α)) :
    alKeys ((a, w) :: rest) = a :: alKeys rest := rfl

theorem alLookup_set_self {α : Type} (m : List (String × α)) (k : String) (v : α) :
    alLookup (alSet m k v) k = some v := by
  induction m with
  | nil => simp [alSet, alLookup]
  | cons p rest ih =>
    obtain ⟨a, w⟩ := p
    by_cases h : a = k
    · simp [alSet, h, alLookup]
    · simp [alSet, h, alLookup, ih]

theorem alLookup_set_ne {α : Type} (m : List (String × α)) (k k' : String) (v : α)
    (h : k' ≠ k) : alLookup (alSet m k v) k' = alLookup m k' := by
  have h' : ¬ k = k' := Ne.symm h
  induction m with
  | nil => simp [alSet, alLookup, h']
  | cons p rest ih =>
    obtain ⟨a, w⟩ := p
    by_cases ha : a = k
    · subst ha
      simp [alSet, alLookup, h']
    · by_cases hb : a = k'
      · simp [alSet, ha, alLookup, hb, h]
      · simp [alSet, ha, alLookup, hb, ih]

theorem alLookup_isSome_iff {α : Type} (m : List (String × α)) (k : String) :
    (alLookup m k).isSome = true ↔ k ∈ alKeys m := by
  induction m with
  | nil => simp [alLookup, alKeys_nil]
  | cons p rest ih =>
    obtain ⟨a, w⟩ := p
    by_cases h : a = k
    · simp [alLookup, h, alKeys_cons]
    · rw [alKeys_cons, List.mem_cons]
      simp only [alLookup, if_neg h]
      rw [ih]
      constructor
      · exact Or.inr
      · rintro (hh | hh)
        · exact absurd hh.symm h
        · exact hh

theorem alLookup_eq_none_iff {α : Type} (m : List (String × α)) (k : String) :
    alLookup m k = none ↔ ¬ k ∈ alKeys m := by
  rw [← alLookup_isSome_iff]
  cases alLookup m k <;> simp

theorem alKeys_set_of_notMem {α : Type} (m : List (String × α)) (k : String) (v : α)
    (h : ¬ k ∈ alKeys m) : alKeys (alSet m k v) = alKeys m ++ [k] := by
  induction m with
  | nil => simp [alSet, alKeys_nil, alKeys_cons]
  | cons p rest ih =>
    obtain ⟨a, w⟩ := p
    rw [alKeys_cons, List.mem_cons] at h
    push_neg at h
    have ha : ¬ a = k := Ne.symm h.1
    simp only [alSet, if_neg ha, alKeys_cons, ih h.2, List.cons_append]

theorem alKeys_erase {α : Type} (m : List (String × α)) (k : String) :
    alKeys (alErase m k) = (alKeys m).erase k := by
  induction m with
  | nil => rfl
  | cons p rest ih =>
    obtain ⟨a, w⟩ := p
    by_cases h : a = k
    · subst h
      simp [alErase, alKeys_cons, List.erase_cons_head]
    · simp [alErase, h, alKeys_cons, List.erase_cons, ih]

theorem alLookup_erase_self_of_nodup {α : Type} (m : List (String × α)) (k : String)
    (h : (alKeys m).Nodup) : alLookup (alErase m k) k = none := by
  induction m with
  | nil => simp [alErase, alLookup]
  | cons p rest ih =>
    obtain ⟨a, w⟩ := p
    rw [alKeys_cons, List.nodup_cons] at h
    by_cases ha : a = k
    · subst ha
      simp only [alErase, if_pos rfl]
      rw [alLookup_eq_none_iff]
      exact h.1
    · simp [alErase, ha, alLookup, ih h.2]

theorem alLookup_erase_ne {α : Type} (m : List (String × α)) (k k' : String)
    (h : k' ≠ k) : alLookup (alErase m k) k' = alLookup m k' := by
  induction m with
  | nil => simp [alErase, alLookup]
  | cons p rest ih =>
    obtain ⟨a, w⟩ := p
    by_cases ha : a = k
    · subst ha
      simp [alErase, alLookup, Ne.symm h]
    · by_cases hb : a = k'
      · simp [alErase, ha, alLookup, hb, h]
      · simp [alErase, ha, alLookup, hb, ih]

theorem alKeys_length {α : Type} (m : List (String × α)) :
    (alKeys m).length = m.length := by
  simp [alKeys]

theorem alKeys_nil_imp {α : Type} (m : List (String × α))
    (h : alKeys m = []) : m = [] := by
  cases m with
  | nil => rfl
  | cons p rest => simp [alKeys] at h

/-! ### Frame lemmas for single steps -/

theorem closeImpl_stack (env : Env) (id : String) (p : Bool) (s : St) :
    (closeImpl env id p s).stack = s.stack := by
  unfold closeImpl
  split
  · split <;> rfl
  · rfl

theorem closeImpl_meta (env : Env) (id : String) (p : Bool) (s : St) :
    (closeImpl env id p s).meta = s.meta := by
  unfold closeImpl
  split
  · split <;> rfl
  · rfl

theorem foldl_proj_inv {β γ : Type} (g : St → γ) (f : St → β → St)
    (hf : ∀ st b, g (f st b) = g st) :
    ∀ (l : List β) (s : St), g (l.foldl f s) = g s := by
  intro l
  induction l with
  | nil => intro s; rfl
  | cons a rest ih =>
    intro s
    rw [List.foldl_cons, ih, hf]

theorem closeAllStep_stack (env : Env) (s : St) :
    (closeAllStep env s).stack = s.stack :=
  foldl_proj_inv St.stack _ (fun st b => closeImpl_stack env b false st) _ s

theorem closeAllStep_meta (env : Env) (s : St) :
    (closeAllStep env s).meta = s.meta :=
  foldl_proj_inv St.meta _ (fun st b => closeImpl_meta env b false st) _ s

theorem clickStep_stack (env : Env) (b : String) (onB : Bool) (s : St) :
    (clickStep env b onB s).stack = s.stack := by
  refine foldl_proj_inv St.stack _ (fun st h => ?_) _ s
  dsimp only
  split
  · exact closeImpl_stack env h.targetId false st
  · rfl

theorem clickStep_meta (env : Env) (b : String) (onB : Bool) (s : St) :
    (clickStep env b onB s).meta = s.meta := by
  refine foldl_proj_inv St.meta _ (fun st h => ?_) _ s
  dsimp only
  split
  · exact closeImpl_meta env h.targetId false st
  · rfl

theorem closeTopImpl_stack (env : Env) (p : Bool) (s : St) :
    (closeTopImpl env p s).stack = s.stack := by
  unfold closeTopImpl
  split
  · rfl
  · split
    · exact closeImpl_stack ..
    · rfl

theorem closeTopImpl_meta (env : Env) (p : Bool) (s : St) :
    (closeTopImpl env p s).meta = s.meta := by
  unfold closeTopImpl
  split
  · rfl
  · split
    · exact closeImpl_meta ..
    · rfl

theorem foldl_id_of_mem {β : Type} (f : St → β → St) :
    ∀ (l : List β) (s : St), (∀ b ∈ l, ∀ st, f st b = st) → l.foldl f s = s := by
  intro l
  induction l with
  | nil => intro s _; rfl
  | cons a rest ih =>
    intro s hf
    rw [List.foldl_cons, hf a (by simp), ih _ (fun b hb st => hf b (by simp [hb]) st)]

theorem erase_filter_ne (l : List String) (a : String) :
    (l.erase a).filter (fun x => x ≠ a) = l.filter (fun x => x ≠ a) := by
  induction l with
  | nil => rfl
  | cons b t ih =>
    by_cases h : b = a
    · subst h
      rw [List.erase_cons_head]
      simp [List.filter_cons]
    · simp only [decide_not] at ih
      simp [List.erase_cons, h, List.filter_cons, decide_not, ih]

/-! ### Claims -/

/-- C7: open on an id with no container element, and close when the
container or the metadata entry does not exist, are silent no-ops: the
entire state (stack, metadata table, flags, event log, timers) is left
unchanged, no event is fired, and nothing is thrown (every operation is a
total function in this embedding). -/
theorem claim_C7 :
    (∀ (env : Env) (id : String) (opts : Options) (s : St),
      ¬ id ∈ env.dom → openStep env id opts s = s) ∧
    (∀ (env : Env) (id : String) (p : Bool) (s : St),
      ¬ id ∈ env.dom ∨ alLookup s.meta id = none → closeImpl env id p s = s) := by
  constructor
  · intro env id opts s h
    simp [openStep, h]
  · intro env id p s h
    rcases h with h | h
    · simp [closeImpl, h]
    · unfold closeImpl
      split
      · rw [h]
      · rfl

/-- Witness for C7 at a page with containers "a","b": opening "zz"
(no container) and closing "a" (never opened) leave the pristine state
untouched. -/
theorem claim_C7_witness :
    openStep env0 "zz" noOpts st0 = st0 ∧ closeImpl env0 "a" false st0 = st0 := by
  constructor
  · exact claim_C7.1 env0 "zz" noOpts st0 (by decide)
  · exact claim_C7.2 env0 "a" false st0 (Or.inr rfl)

/-- C10: frame effect. The synchronous part of close changes neither the
metadata table nor the stack at all; the deferred completion of close(X)
leaves every other id's metadata entry unchanged, the resulting stack is
the original with the first occurrence of X removed — a sublist, so the
relative order of the remaining entries is unchanged — and the non-X
entries are untouched; open(X) leaves every other id's metadata entry
unchanged and appends X to the stack, so existing positions are
untouched. -/
theorem claim_C10 :
    (∀ (env : Env) (id : String) (opts : Options) (s : St), id ∈ env.dom →
      (∀ y, y ≠ id → alLookup (openStep env id opts s).meta y = alLookup s.meta y) ∧
      (openStep env id opts s).stack = s.stack ++ [id]) ∧
    (∀ (env : Env) (id : String) (p : Bool) (s : St),
      (closeImpl env id p s).meta = s.meta ∧ (closeImpl env id p s).stack = s.stack) ∧
    (∀ (env : Env) (id : String) (op : Option Nat) (d : JSVal) (s : St),
      (∀ y, y ≠ id →
        alLookup (runJob env (Job.closedJob id op d) s).meta y = alLookup s.meta y) ∧
      (runJob env (Job.closedJob id op d) s).stack = s.stack.erase id ∧
      List.Sublist (s.stack.erase id) s.stack ∧
      (s.stack.erase id).filter (fun y => y ≠ id) = s.stack.filter (fun y => y ≠ id)) := by
  refine ⟨?_, ?_, ?_⟩
  · intro env id opts s h
    constructor
    · intro y hy
      simp only [openStep, if_pos h]
      exact alLookup_set_ne s.meta id y _ hy
    · simp [openStep, h]
  · intro env id p s
    exact ⟨closeImpl_meta .., closeImpl_stack ..⟩
  · intro env id op d s
    refine ⟨?_, rfl, List.erase_sublist .., erase_filter_ne ..⟩
    intro y hy
    exact alLookup_erase_ne s.meta id y hy

/-- Witness for C10: with "a" open, opening "b" keeps "a"'s metadata
entry, and the synchronous part of close keeps the stack. -/
theorem claim_C10_witness :
    (alLookup (openStep env0 "b" noOpts (run env0 st0 [Act.openA "a" noOpts])).meta "a"
      = alLookup (run env0 st0 [Act.openA "a" noOpts]).meta "a") ∧
    (closeImpl env0 "a" false (run env0 st0 [Act.openA "a" noOpts])).stack
      = (run env0 st0 [Act.openA "a" noOpts]).stack := by
  constructor
  · exact (claim_C10.1 env0 "b" noOpts _ (by decide)).1 "a" (by decide)
  · exact (claim_C10.2.1 env0 "a" false _).2

/-- C2 is false as stated: opening an id that is already open duplicates
the stack entry.  After open("a"); open("a") the stack holds "a" twice. -/
theorem claim_C2_cex :
    (run env0 st0 [Act.openA "a" noOpts, Act.openA "a" noOpts]).stack.count "a" = 2 := by
  decide

/-- C2 amended: opening a valid id appends it to the stack; when the id is
not already open (and the stack is duplicate-free) the stack then contains
it exactly once and stays duplicate-free, but opening an already-open id
appends a second entry — the code does not de-duplicate. -/
theorem claim_C2_amended :
    ∀ (env : Env) (id : String) (opts : Options) (s : St), id ∈ env.dom →
      ((openStep env id opts s).stack = s.stack ++ [id]) ∧
      (¬ id ∈ s.stack → s.stack.Nodup →
        (openStep env id opts s).stack.Nodup ∧
        (openStep env id opts s).stack.count id = 1) := by
  intro env id opts s h
  have hst : (openStep env id opts s).stack = s.stack ++ [id] := by
    simp [openStep, h]
  refine ⟨hst, fun hmem hnd => ⟨?_, ?_⟩⟩
  · rw [hst]
    simp [List.nodup_append, hnd, hmem]
  · rw [hst, List.count_append]
    simp [List.count_eq_zero.mpr hmem]

/-- Witness for C2 amended: opening "a" on the pristine page puts it on
the stack exactly once. -/
theorem claim_C2_witness :
    (openStep env0 "a" noOpts st0).stack = st0.stack ++ ["a"] ∧
    (openStep env0 "a" noOpts st0).stack.count "a" = 1 := by
  obtain ⟨h1, h2⟩ := claim_C2_amended env0 "a" noOpts st0 (by decide)
  exact ⟨h1, (h2 (by decide) (by decide)).2⟩

/-- C5 is false as stated: getData is `__meta[id]?.data || null`, so a
falsy payload is not returned.  Opening "a" with payload 0 and reading it
back yields null, not 0. -/
theorem claim_C5_cex :
    getData (run env0 st0 [Act.openA "a" { data := some (JSVal.vNum 0) }]) "a"
        = JSVal.vNull ∧
      JSVal.vNull ≠ JSVal.vNum 0 := by
  exact ⟨by decide, by decide⟩

/-- C5 amended: getData returns the payload stored at open when that
payload is truthy; it returns null when the stored payload is falsy
(0, false, the empty string, null), when no payload was supplied, for a
never-opened id, and after the deferred close completion has deleted the
entry.  It mutates no state (in this embedding it is a pure function of
the state). -/
theorem claim_C5_amended :
    (∀ (s : St) (id : String), alLookup s.meta id = none → getData s id = JSVal.vNull) ∧
    (∀ (s : St) (id : String) (e : Entry), alLookup s.meta id = some e →
      getData s id = (if truthy e.data then e.data else JSVal.vNull)) ∧
    (∀ (env : Env) (id : String) (opts : Options) (s : St), id ∈ env.dom →
      getData (openStep env id opts s) id =
        (if truthy (opts.data.getD JSVal.vNull) then opts.data.getD JSVal.vNull
         else JSVal.vNull)) ∧
    (∀ (env : Env) (id : String) (op : Option Nat) (d : JSVal) (s : St),
      (alKeys s.meta).Nodup →
      getData (runJob env (Job.closedJob id op d) s) id = JSVal.vNull) := by
  refine ⟨?_, ?_, ?_, ?_⟩
  · intro s id h
    simp [getData, h]
  · intro s id e h
    simp [getData, h]
  · intro env id opts s h
    simp [getData, openStep, h, alLookup_set_self]
  · intro env id op d s h
    have : alLookup (runJob env (Job.closedJob id op d) s).meta id = none := by
      simp only [runJob]
      exact alLookup_erase_self_of_nodup s.meta id h
    simp [getData, this]

/-- Witness for C5 amended: a truthy payload is returned as stored, a
never-opened id yields null. -/
theorem claim_C5_witness :
    getData st0 "a" = JSVal.vNull ∧
    getData (openStep env0 "a" { data := some (JSVal.vNum 7) } st0) "a"
      = JSVal.vNum 7 := by
  constructor
  · exact claim_C5_amended.1 st0 "a" rfl
  · have h := claim_C5_amended.2.2.1 env0 "a" { data := some (JSVal.vNum 7) } st0
      (by decide)
    simpa [truthy] using h

/-- C3 fails in the code: close's stack-emptiness check runs before the
deferred stack removal, so after closing the last open modal the body
overflow is still "hidden" even though the stack, metadata and timers are
all empty — background scrolling is never restored.  (Open does suspend
scrolling, per the first conjunct.) -/
theorem claim_C3_bug :
    (run env0 st0 [Act.openA "a" noOpts]).overflowHidden = true ∧
    (run env0 st0 [Act.openA "a" noOpts, Act.fireA, Act.closeA "a", Act.fireA]).stack = [] ∧
    (run env0 st0 [Act.openA "a" noOpts, Act.fireA, Act.closeA "a", Act.fireA]).meta = [] ∧
    (run env0 st0 [Act.openA "a" noOpts, Act.fireA, Act.closeA "a", Act.fireA]).timers = [] ∧
    (run env0 st0 [Act.openA "a" noOpts, Act.fireA, Act.closeA "a", Act.fireA]).overflowHidden
      = true := by
  exact ⟨by decide, by decide, by decide, by decide, by decide⟩

/-- C4: the ESC handler is a no-op while a transition is in progress, and
otherwise delegates to closeTop; closeTop is a no-op on an empty stack and
when the topmost entry's closable option is explicitly false, and
otherwise closes exactly the topmost entry via the standard close path;
every event it emits and every deferred job it schedules targets the
topmost id only — it never closes a lower modal. -/
theorem claim_C4 :
    (∀ (env : Env) (s : St), s.transitioning = true → step env s Act.escA = s) ∧
    (∀ (env : Env) (s : St), s.transitioning = false →
      step env s Act.escA = closeTop env s) ∧
    (∀ (env : Env) (s : St), s.stack = [] → closeTop env s = s) ∧
    (∀ (env : Env) (s : St) (l : List String) (top : String) (e : Entry),
      s.stack = l ++ [top] → alLookup s.meta top = some e → e.closable = false →
      closeTop env s = s) ∧
    (∀ (env : Env) (s : St) (l : List String) (top : String),
      s.stack = l ++ [top] → escClosable s top = true →
      closeTop env s = closeImpl env top false s) ∧
    (∀ (env : Env) (s : St) (ev : Ev),
      ev ∈ (closeTop env s).events.drop s.events.length →
      s.stack.getLast? = some (evId ev) ∧ isCloseEv ev = true) ∧
    (∀ (env : Env) (s : St) (t : Timer),
      t ∈ (closeTop env s).timers.drop s.timers.length →
      s.stack.getLast? = some (jobIdOf t.job) ∧ isClosedJob t.job = true) := by
  refine ⟨?_, ?_, ?_, ?_, ?_, ?_, ?_⟩
  · intro env s h
    simp [step, h]
  · intro env s h
    simp [step, h]
  · intro env s h
    simp [closeTop, closeTopImpl, h]
  · intro env s l top e hs he hc
    simp [closeTop, closeTopImpl, hs, List.getLast?_concat, escClosable, he, hc]
  · intro env s l top hs hc
    simp [closeTop, closeTopImpl, hs, List.getLast?_concat, hc]
  · intro env s ev hev
    unfold closeTop closeTopImpl at hev
    cases hl : s.stack.getLast? with
    | none =>
      rw [hl] at hev
      simp [List.drop_length] at hev
    | some top =>
      rw [hl] at hev
      dsimp only at hev
      by_cases hc : escClosable s top = true
      · rw [if_pos hc] at hev
        unfold closeImpl at hev
        by_cases hd : top ∈ env.dom
        · rw [if_pos hd] at hev
          cases hm : alLookup s.meta top with
          | none =>
            rw [hm] at hev
            simp [List.drop_length] at hev
          | some e =>
            rw [hm] at hev
            simp only [List.drop_left] at hev
            rw [List.mem_singleton] at hev
            subst hev
            exact ⟨rfl, rfl⟩
        · rw [if_neg hd] at hev
          simp [List.drop_length] at hev
      · rw [if_neg hc] at hev
        simp [List.drop_length] at hev
  · intro env s t ht
    unfold closeTop closeTopImpl at ht
    cases hl : s.stack.getLast? with
    | none =>
      rw [hl] at ht
      simp [List.drop_length] at ht
    | some top =>
      rw [hl] at ht
      dsimp only at ht
      by_cases hc : escClosable s top = true
      · rw [if_pos hc] at ht
        unfold closeImpl at ht
        by_cases hd : top ∈ env.dom
        · rw [if_pos hd] at ht
          cases hm : alLookup s.meta top with
          | none =>
            rw [hm] at ht
            simp [List.drop_length] at ht
          | some e =>
            rw [hm] at ht
            simp only [List.drop_left] at ht
            rw [List.mem_singleton] at ht
            subst ht
            exact ⟨rfl, rfl⟩
        · rw [if_neg hd] at ht
          simp [List.drop_length] at ht
      · rw [if_neg hc] at ht
        simp [List.drop_length] at ht

/-- Witness for C4: ESC during the opening transition of "a" does
nothing; closeTop on "a" opened with closable false does nothing; with
"a" under "b", closeTop closes exactly "b". -/
theorem claim_C4_witness :
    step env0 (run env0 st0 [Act.openA "a" noOpts]) Act.escA
      = run env0 st0 [Act.openA "a" noOpts] ∧
    closeTop env0 (run env0 st0 [Act.openA "a" { closable := some false }, Act.fireA])
      = run env0 st0 [Act.openA "a" { closable := some false }, Act.fireA] ∧
    closeTop env0
        (run env0 st0 [Act.openA "a" noOpts, Act.fireA, Act.openA "b" noOpts, Act.fireA])
      = closeImpl env0 "b" false
        (run env0 st0 [Act.openA "a" noOpts, Act.fireA, Act.openA "b" noOpts, Act.fireA])
    := by
  refine ⟨?_, ?_, ?_⟩
  · exact claim_C4.1 env0 _ (by decide)
  · exact claim_C4.2.2.2.1 env0 _ [] "a"
      ⟨true, false, true, none, 300, JSVal.vNull⟩ (by decide) (by decide) rfl
  · exact claim_C4.2.2.2.2.1 env0 _ ["a"] "b" (by decide) (by decide)

/-- C9: a click inside the modal content never closes anything; a
backdrop click does nothing when every listener on that backdrop captured
backdropClose = false; with the single attached listener having
backdropClose = true, a backdrop click triggers the standard close of
that modal; open attaches exactly one fresh listener (and records it on
the element); close detaches the recorded listener; and once no listener
is attached to a backdrop, clicks on it are complete no-ops — a closed
modal's handler can never fire. -/
theorem claim_C9 :
    (∀ (env : Env) (b : String) (s : St), clickStep env b false s = s) ∧
    (∀ (env : Env) (b : String) (s : St),
      (∀ h ∈ s.handlers, h.targetId = b → h.backdropClose = false) →
      clickStep env b true s = s) ∧
    (∀ (env : Env) (b : String) (uid : Nat) (s : St),
      s.handlers.filter (fun h => h.targetId = b) = [⟨uid, b, true⟩] →
      clickStep env b true s = close env b s) ∧
    (∀ (env : Env) (id : String) (opts : Options) (s : St), id ∈ env.dom →
      (openStep env id opts s).handlers
          = s.handlers ++ [⟨s.nextUid, id, opts.backdropClose.getD true⟩] ∧
        alLookup (openStep env id opts s).prop id = some s.nextUid) ∧
    (∀ (env : Env) (id : String) (p : Bool) (uid : Nat) (e : Entry) (s : St),
      id ∈ env.dom → alLookup s.meta id = some e → alLookup s.prop id = some uid →
      (closeImpl env id p s).handlers = s.handlers.filter (fun h => h.uid ≠ uid)) ∧
    (∀ (env : Env) (b : String) (onB : Bool) (s : St),
      s.handlers.filter (fun h => h.targetId = b) = [] → clickStep env b onB s = s) := by
  refine ⟨?_, ?_, ?_, ?_, ?_, ?_⟩
  · intro env b s
    refine foldl_id_of_mem _ _ s (fun h _ st => ?_)
    simp
  · intro env b s hall
    refine foldl_id_of_mem _ _ s (fun h hh st => ?_)
    have hmem := List.mem_filter.mp hh
    have hbc : h.backdropClose = false := hall h hmem.1 (by simpa using hmem.2)
    simp [hbc]
  · intro env b uid s hf
    have hmem : (⟨uid, b, true⟩ : Handler) ∈ s.handlers := by
      have hx : (⟨uid, b, true⟩ : Handler)
          ∈ s.handlers.filter (fun h => h.targetId = b) := by
        rw [hf]
        exact List.mem_singleton_self _
      exact (List.mem_filter.mp hx).1
    have hcontains : s.handlers.contains ⟨uid, b, true⟩ = true :=
      List.elem_eq_true_of_mem hmem
    simp only [clickStep, hf, List.foldl_cons, List.foldl_nil]
    rw [if_pos (by simp [hcontains, hmem])]
  · intro env id opts s h
    constructor
    · simp [openStep, h]
    · simp only [openStep, if_pos h]
      exact alLookup_set_self s.prop id s.nextUid
  · intro env id p uid e s hd hm hp
    unfold closeImpl
    rw [if_pos hd, hm, hp]
  · intro env b onB s hf
    simp only [clickStep, hf, List.foldl_nil]

/-- Witness for C9: with "a" open, a click inside the content changes
nothing, a backdrop click closes "a", and after opening with
backdropClose false a backdrop click changes nothing. -/
theorem claim_C9_witness :
    clickStep env0 "a" false (run env0 st0 [Act.openA "a" noOpts, Act.fireA])
      = run env0 st0 [Act.openA "a" noOpts, Act.fireA] ∧
    clickStep env0 "a" true (run env0 st0 [Act.openA "a" noOpts, Act.fireA])
      = close env0 "a" (run env0 st0 [Act.openA "a" noOpts, Act.fireA]) ∧
    clickStep env0 "a" true
        (run env0 st0 [Act.openA "a" { backdropClose := some false }, Act.fireA])
      = run env0 st0 [Act.openA "a" { backdropClose := some false }, Act.fireA] := by
  refine ⟨?_, ?_, ?_⟩
  · exact claim_C9.1 env0 "a" _
  · exact claim_C9.2.2.1 env0 "a" 0 _ (by decide)
  · exact claim_C9.2.1 env0 "a" _ (by decide)

/-! ### The stack/metadata correspondence invariant (C1) -/

theorem step_preserves_inv (env : Env) (s : St) (a : Act)
    (hk : alKeys s.meta = s.stack) (hn : s.stack.Nodup)
    (hsafe : ∀ id opts, a = Act.openA id opts → ¬ id ∈ s.stack) :
    alKeys (step env s a).meta = (step env s a).stack ∧ (step env s a).stack.Nodup := by
  cases a with
  | openA id opts =>
    have hid : ¬ id ∈ s.stack := hsafe id opts rfl
    show alKeys (openStep env id opts s).meta = (openStep env id opts s).stack ∧
      (openStep env id opts s).stack.Nodup
    by_cases h : id ∈ env.dom
    · have hmk : ¬ id ∈ alKeys s.meta := by
        rw [hk]
        exact hid
      constructor
      · simp only [openStep, if_pos h]
        rw [alKeys_set_of_notMem s.meta id _ hmk, hk]
      · simp only [openStep, if_pos h]
        simp [List.nodup_append, hn, hid]
    · simp only [openStep, if_neg h]
      exact ⟨hk, hn⟩
  | closeA id =>
    show alKeys (closeImpl env id false s).meta = (closeImpl env id false s).stack ∧
      (closeImpl env id false s).stack.Nodup
    rw [closeImpl_meta, closeImpl_stack]
    exact ⟨hk, hn⟩
  | closeTopA =>
    show alKeys (closeTopImpl env false s).meta = (closeTopImpl env false s).stack ∧
      (closeTopImpl env false s).stack.Nodup
    rw [closeTopImpl_meta, closeTopImpl_stack]
    exact ⟨hk, hn⟩
  | escA =>
    show alKeys (if s.transitioning then s else closeTop env s).meta
        = (if s.transitioning then s else closeTop env s).stack ∧
      (if s.transitioning then s else closeTop env s).stack.Nodup
    split
    · exact ⟨hk, hn⟩
    · rw [closeTop, closeTopImpl_meta, closeTopImpl_stack]
      exact ⟨hk, hn⟩
  | closeAllA =>
    show alKeys (closeAllStep env s).meta = (closeAllStep env s).stack ∧
      (closeAllStep env s).stack.Nodup
    rw [closeAllStep_meta, closeAllStep_stack]
    exact ⟨hk, hn⟩
  | clickA b onB =>
    show alKeys (clickStep env b onB s).meta = (clickStep env b onB s).stack ∧
      (clickStep env b onB s).stack.Nodup
    rw [clickStep_meta, clickStep_stack]
    exact ⟨hk, hn⟩
  | fireA =>
    show alKeys (fireStep env s).meta = (fireStep env s).stack ∧
      (fireStep env s).stack.Nodup
    unfold fireStep
    cases hx : extractMin s.timers with
    | none => exact ⟨hk, hn⟩
    | some pr =>
      obtain ⟨t, rest⟩ := pr
      dsimp only
      cases hj : t.job with
      | openedJob id d focus =>
        exact ⟨hk, hn⟩
      | closedJob id op d =>
        refine ⟨?_, ?_⟩
        · show alKeys (alErase s.meta id) = s.stack.erase id
          rw [alKeys_erase, hk]
        · show (s.stack.erase id).Nodup
          exact List.Nodup.sublist (List.erase_sublist ..) hn

theorem run_preserves_inv (env : Env) :
    ∀ (acts : List Act) (s : St), safeTrace env s acts = true →
      alKeys s.meta = s.stack → s.stack.Nodup →
      alKeys (run env s acts).meta = (run env s acts).stack ∧
        (run env s acts).stack.Nodup := by
  intro acts
  induction acts with
  | nil =>
    intro s _ hk hn
    exact ⟨hk, hn⟩
  | cons a rest ih =>
    intro s hsafe hk hn
    rw [safeTrace, Bool.and_eq_true] at hsafe
    have hguard : ∀ id opts, a = Act.openA id opts → ¬ id ∈ s.stack := by
      intro id opts ha
      subst ha
      have h1 := hsafe.1
      simp only [actGuard, Bool.not_eq_true'] at h1
      simpa using h1
    obtain ⟨hk', hn'⟩ := step_preserves_inv env s a hk hn hguard
    exact ih (step env s a) hsafe.2 hk' hn'

/-- C1 is false as stated: after open("a"); open("a") the stack has two
entries but the metadata table has one, so the stack length does not equal
the number of metadata entries. -/
theorem claim_C1_cex :
    (run env0 st0 [Act.openA "a" noOpts, Act.openA "a" noOpts]).stack.length = 2 ∧
    (run env0 st0 [Act.openA "a" noOpts, Act.openA "a" noOpts]).meta.length = 1 := by
  exact ⟨by decide, by decide⟩

/-- C1 amended: along every sequence of operations in which open is never
invoked on an id currently on the stack, at every point each id on the
stack has exactly one metadata entry and vice versa, and the stack length
equals the number of metadata entries.  (Opening an already-open id
breaks the invariant, as the counterexample shows.) -/
theorem claim_C1_amended :
    ∀ (env : Env) (acts : List Act), safeTrace env st0 acts = true →
      ((run env st0 acts).stack.length = (run env st0 acts).meta.length) ∧
      (∀ id, id ∈ (run env st0 acts).stack ↔
        (alLookup (run env st0 acts).meta id).isSome = true) ∧
      (∀ id ∈ (run env st0 acts).stack, (run env st0 acts).stack.count id = 1) := by
  intro env acts hsafe
  obtain ⟨hk, hn⟩ := run_preserves_inv env acts st0 hsafe rfl List.nodup_nil
  refine ⟨?_, ?_, ?_⟩
  · rw [← hk, alKeys_length]
  · intro id
    rw [alLookup_isSome_iff, hk]
  · intro id hid
    exact List.count_eq_one_of_mem hn hid

/-- Witness for C1 amended: a duplicate-free trace that opens "a", lets it
open, closes it, lets the close finish, then opens "b". -/
theorem claim_C1_witness :
    safeTrace env0 st0 [Act.openA "a" noOpts, Act.fireA, Act.closeA "a", Act.fireA,
        Act.openA "b" noOpts] = true ∧
    (run env0 st0 [Act.openA "a" noOpts, Act.fireA, Act.closeA "a", Act.fireA,
        Act.openA "b" noOpts]).stack.length
      = (run env0 st0 [Act.openA "a" noOpts, Act.fireA, Act.closeA "a", Act.fireA,
        Act.openA "b" noOpts]).meta.length := by
  have h := claim_C1_amended env0
    [Act.openA "a" noOpts, Act.fireA, Act.closeA "a", Act.fireA, Act.openA "b" noOpts]
    (by decide)
  exact ⟨by decide, h.1⟩

/-- C8 is false as stated: a close requested before the open's timer has
fired produces the event order open, close, opened, closed — the close
event precedes the opened event, violating the claimed strict order for
that interleaving. -/
theorem claim_C8_cex :
    (run env0 st0 [Act.openA "a" noOpts, Act.closeA "a", Act.fireA, Act.fireA]).events
        = [Ev.openEv "a" JSVal.vNull, Ev.closeEv "a" JSVal.vNull,
           Ev.openedEv "a" JSVal.vNull, Ev.closedEv "a" JSVal.vNull] ∧
      (run env0 st0 [Act.openA "a" noOpts, Act.closeA "a", Act.fireA, Act.fireA]).events.indexOf
          (Ev.closeEv "a" JSVal.vNull)
        < (run env0 st0 [Act.openA "a" noOpts, Act.closeA "a", Act.fireA,
            Act.fireA]).events.indexOf (Ev.openedEv "a" JSVal.vNull) := by
  exact ⟨by decide, by decide⟩

/-- C8 amended: for a modal opened once and closed once, the events fire
in the strict order open, opened, close, closed when the close is
requested after the open's deferred completion has fired; when the close
is requested before the open's timer fires, the code instead produces
open, close, opened, closed (the open/opened and close/closed pairs keep
their order, but close overtakes opened). -/
theorem claim_C8_amended :
    ∀ (env : Env) (a : String) (d : JSVal), a ∈ env.dom →
      ((run env st0 [Act.openA a { data := some d }, Act.fireA, Act.closeA a,
          Act.fireA]).events
        = [Ev.openEv a d, Ev.openedEv a d, Ev.closeEv a d, Ev.closedEv a d]) ∧
      ((run env st0 [Act.openA a { data := some d }, Act.closeA a, Act.fireA,
          Act.fireA]).events
        = [Ev.openEv a d, Ev.closeEv a d, Ev.openedEv a d, Ev.closedEv a d]) := by
  intro env a d ha
  constructor <;>
  · simp [run, step, openStep, closeImpl, close, fireStep, extractMin, runJob, timerLE,
      st0, alSet, alLookup, alErase, ha, defaultDuration]

/-! ### closeAll and the timer queue (C6) -/

theorem extractMin_ne_none (t : Timer) (ts : List Timer) :
    extractMin (t :: ts) ≠ none := by
  unfold extractMin
  cases extractMin ts with
  | none => simp
  | some pr =>
    obtain ⟨m, rest⟩ := pr
    dsimp only
    split <;> simp

theorem extractMin_perm :
    ∀ (l : List Timer) (t : Timer) (rest : List Timer),
      extractMin l = some (t, rest) → l.Perm (t :: rest) := by
  intro l
  induction l with
  | nil =>
    intro t rest h
    simp [extractMin] at h
  | cons a ts ih =>
    intro t rest h
    unfold extractMin at h
    cases hx : extractMin ts with
    | none =>
      rw [hx] at h
      have hts : ts = [] := by
        cases ts with
        | nil => rfl
        | cons b bs => exact absurd hx (extractMin_ne_none b bs)
      dsimp only at h
      rw [Option.some_inj, Prod.mk.injEq] at h
      obtain ⟨rfl, rfl⟩ := h
      rw [hts]
    | some pr =>
      obtain ⟨m, mrest⟩ := pr
      rw [hx] at h
      dsimp only at h
      by_cases hle : timerLE a m = true
      · rw [if_pos hle] at h
        rw [Option.some_inj, Prod.mk.injEq] at h
        obtain ⟨rfl, rfl⟩ := h
        exact List.Perm.refl _
      · rw [if_neg hle] at h
        rw [Option.some_inj, Prod.mk.injEq] at h
        obtain ⟨rfl, rfl⟩ := h
        exact ((ih m mrest hx).cons a).trans (List.Perm.swap m a mrest)

theorem closedJobsFor_map_jobId (m : List (String × Entry)) (now : Nat) :
    ∀ (l : List String) (q : Nat),
      (closedJobsFor m now q l).map (fun t => jobIdOf t.job) = l := by
  intro l
  induction l with
  | nil => intro q; rfl
  | cons a rest ih =>
    intro q
    rw [closedJobsFor, List.map_cons, ih (q + 1)]
    rfl

theorem closedJobsFor_closed (m : List (String × Entry)) (now : Nat) :
    ∀ (l : List String) (q : Nat) (t : Timer), t ∈ closedJobsFor m now q l →
      isClosedJob t.job = true := by
  intro l
  induction l with
  | nil =>
    intro q t ht
    simp [closedJobsFor] at ht
  | cons a rest ih =>
    intro q t ht
    simp only [closedJobsFor, List.mem_cons] at ht
    rcases ht with h | h
    · subst h
      rfl
    · exact ih (q + 1) t h

theorem foldClose_spec (env : Env) :
    ∀ (l : List String) (s : St),
      (∀ id ∈ l, id ∈ env.dom) →
      (∀ id ∈ l, (alLookup s.meta id).isSome = true) →
      (l.foldl (fun st id => close env id st) s).meta = s.meta ∧
      (l.foldl (fun st id => close env id st) s).stack = s.stack ∧
      (l.foldl (fun st id => close env id st) s).events
        = s.events ++ l.map (fun id => Ev.closeEv id (dataOf s.meta id)) ∧
      (l.foldl (fun st id => close env id st) s).timers
        = s.timers ++ closedJobsFor s.meta s.now s.nextSeq l := by
  intro l
  induction l with
  | nil =>
    intro s _ _
    exact ⟨rfl, rfl, by simp, by simp [closedJobsFor]⟩
  | cons a rest ih =>
    intro s hdom hmeta
    obtain ⟨e, he⟩ : ∃ e, alLookup s.meta a = some e := by
      have h1 := hmeta a (List.mem_cons_self a rest)
      cases hcase : alLookup s.meta a with
      | none =>
        rw [hcase] at h1
        simp at h1
      | some e => exact ⟨e, rfl⟩
    have hadom : a ∈ env.dom := hdom a (List.mem_cons_self a rest)
    have hm : (close env a s).meta = s.meta := by
      unfold close closeImpl
      rw [if_pos hadom, he]
    have hs : (close env a s).stack = s.stack := by
      unfold close closeImpl
      rw [if_pos hadom, he]
    have hev : (close env a s).events = s.events ++ [Ev.closeEv a e.data] := by
      unfold close closeImpl
      rw [if_pos hadom, he]
    have ht : (close env a s).timers = s.timers ++
        [⟨s.now + e.duration, s.nextSeq, Job.closedJob a e.opener e.data⟩] := by
      unfold close closeImpl
      rw [if_pos hadom, he]
    have hnow : (close env a s).now = s.now := by
      unfold close closeImpl
      rw [if_pos hadom, he]
    have hseq : (close env a s).nextSeq = s.nextSeq + 1 := by
      unfold close closeImpl
      rw [if_pos hadom, he]
    rw [List.foldl_cons]
    obtain ⟨ihm, ihs, ihev, ihtim⟩ := ih (close env a s)
      (fun id hid => hdom id (List.mem_cons_of_mem a hid))
      (fun id hid => by
        rw [hm]
        exact hmeta id (List.mem_cons_of_mem a hid))
    simp only [hm, hs, hev, ht, hnow, hseq] at ihm ihs ihev ihtim
    refine ⟨ihm, ihs, ?_, ?_⟩
    · rw [ihev]
      simp [dataOf, he, List.append_assoc]
    · rw [ihtim]
      simp [closedJobsFor, durOf, openerOf, dataOf, he, List.append_assoc]

theorem filter_erase_step (id : String) (J R : List String)
    (hiff : ∀ x, x ∈ J ↔ (x = id ∨ x ∈ R)) :
    ∀ (l : List String), l.Nodup →
      (l.erase id).filter (fun x => decide (¬ x ∈ R))
        = l.filter (fun x => decide (¬ x ∈ J)) := by
  intro l
  induction l with
  | nil =>
    intro _
    rfl
  | cons b t iht =>
    intro hnod
    rw [List.nodup_cons] at hnod
    by_cases hbid : b = id
    · subst hbid
      rw [List.erase_cons_head, List.filter_cons]
      have hPJ : (decide (¬ b ∈ J) : Bool) = false := by
        simp [hiff]
      rw [hPJ]
      simp only [Bool.false_eq_true, if_false]
      apply List.filter_congr
      intro x hx
      have hxid : ¬ x = b := fun hh => hnod.1 (hh ▸ hx)
      simp [hiff, hxid]
    · rw [List.erase_cons, if_neg (by simp [hbid] : ¬ ((b == id) = true))]
      rw [List.filter_cons, List.filter_cons]
      have hsame : (decide (¬ b ∈ R) : Bool) = decide (¬ b ∈ J) := by
        simp [hiff, hbid]
      rw [hsame, iht hnod.2]

theorem drain_spec (env : Env) :
    ∀ (n : Nat) (ts : List Timer) (s : St), ts.length = n → s.timers = ts →
      (∀ t ∈ ts, isClosedJob t.job = true) →
      (ts.map (fun t => jobIdOf t.job)).Nodup →
      (∀ t ∈ ts, jobIdOf t.job ∈ s.stack) →
      s.stack.Nodup → (alKeys s.meta).Nodup →
      (drainN env n s).stack
          = s.stack.filter (fun x => decide (¬ x ∈ ts.map (fun t => jobIdOf t.job))) ∧
      alKeys (drainN env n s).meta
          = (alKeys s.meta).filter
              (fun x => decide (¬ x ∈ ts.map (fun t => jobIdOf t.job))) ∧
      (drainN env n s).timers = [] ∧
      ∃ newEvs : List Ev,
        (drainN env n s).events = s.events ++ newEvs ∧
        (∀ id, newEvs.countP (isClosedFor id)
          = (if id ∈ ts.map (fun t => jobIdOf t.job) then 1 else 0)) ∧
        (∀ id, newEvs.countP (isCloseFor id) = 0) := by
  intro n
  induction n with
  | zero =>
    intro ts s hlen hts _ _ _ _ _
    have hts0 : ts = [] := List.length_eq_zero.mp hlen
    subst hts0
    refine ⟨by simp [drainN], by simp [drainN], by simp [drainN, hts], [], by simp [drainN],
      ?_, ?_⟩
    · intro id
      simp
    · intro id
      simp
  | succ n ih =>
    intro ts s hlen hts hjobs hnodup hinstack hsnodup hknodup
    cases hx : extractMin ts with
    | none =>
      exfalso
      cases ts with
      | nil => simp at hlen
      | cons b bs => exact extractMin_ne_none b bs hx
    | some pr =>
      obtain ⟨t, rest'⟩ := pr
      have hperm : ts.Perm (t :: rest') := extractMin_perm ts t rest' hx
      have htmem : t ∈ ts := hperm.symm.subset (List.mem_cons_self t rest')
      have hrsub : ∀ x ∈ rest', x ∈ ts :=
        fun x hxm => hperm.symm.subset (List.mem_cons_of_mem t hxm)
      have hlen' : rest'.length = n := by
        have hpl := hperm.length_eq
        rw [hlen] at hpl
        simpa using hpl.symm
      have hclosed := hjobs t htmem
      cases hj : t.job with
      | openedJob i d f =>
        rw [hj] at hclosed
        simp [isClosedJob] at hclosed
      | closedJob id op d =>
        have hmapperm : (ts.map (fun t => jobIdOf t.job)).Perm
            (id :: rest'.map (fun t => jobIdOf t.job)) := by
          have hp := hperm.map (fun t => jobIdOf t.job)
          rw [List.map_cons, hj] at hp
          exact hp
        have hmap_nodup := hmapperm.nodup_iff.mp hnodup
        rw [List.nodup_cons] at hmap_nodup
        obtain ⟨hid_notin, hrest_nodup⟩ := hmap_nodup
        have hmem_iff : ∀ x, (x ∈ ts.map (fun t => jobIdOf t.job))
            ↔ (x = id ∨ x ∈ rest'.map (fun t => jobIdOf t.job)) := by
          intro x
          rw [hmapperm.mem_iff, List.mem_cons]
        have hfire : fireStep env s
            = runJob env (Job.closedJob id op d)
              { s with timers := rest', now := max s.now t.fireAt } := by
          unfold fireStep
          rw [hts, hx]
          dsimp only
          rw [hj]
        have hne : ∀ t' ∈ rest', jobIdOf t'.job ≠ id := by
          intro t' ht' heq
          exact hid_notin (by
            rw [← heq]
            exact List.mem_map_of_mem _ ht')
        obtain ⟨ihstack, ihmeta, ihtimers, newEvs, ihev, ihclosed, ihclose⟩ :=
          ih rest' (runJob env (Job.closedJob id op d)
              { s with timers := rest', now := max s.now t.fireAt })
            hlen' rfl
            (fun t' ht' => hjobs t' (hrsub t' ht'))
            hrest_nodup
            (fun t' ht' =>
              (List.mem_erase_of_ne (hne t' ht')).mpr (hinstack t' (hrsub t' ht')))
            (List.Nodup.sublist (List.erase_sublist ..) hsnodup)
            (by
              show (alKeys (alErase s.meta id)).Nodup
              rw [alKeys_erase]
              exact List.Nodup.sublist (List.erase_sublist ..) hknodup)
        have hstep : drainN env (n + 1) s
            = drainN env n (runJob env (Job.closedJob id op d)
                { s with timers := rest', now := max s.now t.fireAt }) := by
          show drainN env n (fireStep env s) = _
          rw [hfire]
        refine ⟨?_, ?_, ?_, Ev.closedEv id d :: newEvs, ?_, ?_, ?_⟩
        · rw [hstep, ihstack]
          exact filter_erase_step id _ _ hmem_iff s.stack hsnodup
        · rw [hstep, ihmeta]
          show (alKeys (alErase s.meta id)).filter _ = _
          rw [alKeys_erase]
          exact filter_erase_step id _ _ hmem_iff (alKeys s.meta) hknodup
        · rw [hstep]
          exact ihtimers
        · rw [hstep, ihev]
          show (s.events ++ [Ev.closedEv id d]) ++ newEvs = _
          simp
        · intro i
          rw [List.countP_cons, ihclosed i]
          by_cases hii : i = id
          · subst hii
            have hnotin' : ¬ i ∈ rest'.map (fun t => jobIdOf t.job) := hid_notin
            simp [isClosedFor, hmem_iff, hnotin']
          · have hfalse : isClosedFor i (Ev.closedEv id d) = false := by
              simp [isClosedFor]
              exact fun hc => absurd hc.symm hii
            simp [hfalse, hmem_iff, hii]
        · intro i
          rw [List.countP_cons, ihclose i]
          simp [isCloseFor]

/-- C6: from any quiescent well-formed state, closeAll snapshots the
stack and invokes the standard close path on each id from topmost to
bottommost — the close events it appends are exactly the stack in reverse
order — and once all the deferred completions fire the stack and metadata
table are empty and every previously open id has received its close and
its closed event exactly once. -/
theorem claim_C6 :
    ∀ (env : Env) (s : St), wf env s = true →
      (((closeAllStep env s).events.drop s.events.length).map evId
        = s.stack.reverse) ∧
      (∀ ev ∈ (closeAllStep env s).events.drop s.events.length, isCloseEv ev = true) ∧
      ((drainN env s.stack.length (closeAllStep env s)).stack = []) ∧
      ((drainN env s.stack.length (closeAllStep env s)).meta = []) ∧
      (∀ id ∈ s.stack,
        ((drainN env s.stack.length (closeAllStep env s)).events.drop
            s.events.length).countP (isCloseFor id) = 1 ∧
        ((drainN env s.stack.length (closeAllStep env s)).events.drop
            s.events.length).countP (isClosedFor id) = 1) := by
  intro env s hwf
  simp only [wf, Bool.and_eq_true, beq_iff_eq, List.all_eq_true, List.isEmpty_iff,
    decide_eq_true_eq] at hwf
  obtain ⟨⟨⟨hkeys, hnodup⟩, hdomB⟩, htimers⟩ := hwf
  have hdom : ∀ id ∈ s.stack, id ∈ env.dom := by
    intro id hid
    have hb := hdomB id hid
    simpa using hb
  have hdomRev : ∀ id ∈ s.stack.reverse, id ∈ env.dom :=
    fun id hid => hdom id (List.mem_reverse.mp hid)
  have hmetaSome : ∀ id ∈ s.stack.reverse, (alLookup s.meta id).isSome = true := by
    intro id hid
    rw [alLookup_isSome_iff, hkeys]
    exact List.mem_reverse.mp hid
  obtain ⟨h1m, h1s, h1e, h1t⟩ := foldClose_spec env s.stack.reverse s hdomRev hmetaSome
  simp only [closeAllStep]
  set ts := closedJobsFor s.meta s.now s.nextSeq s.stack.reverse with hts_def
  have hmap : ts.map (fun t => jobIdOf t.job) = s.stack.reverse :=
    closedJobsFor_map_jobId s.meta s.now s.stack.reverse s.nextSeq
  have htslen : ts.length = s.stack.length := by
    rw [← List.length_map ts (fun t => jobIdOf t.job), hmap, List.length_reverse]
  obtain ⟨hdstack, hdmeta, hdtimers, newEvs, hdev, hdclosed, hdclose⟩ :=
    drain_spec env s.stack.length ts
      (s.stack.reverse.foldl (fun st id => close env id st) s)
      htslen
      (by rw [h1t, htimers, List.nil_append])
      (fun t ht => closedJobsFor_closed s.meta s.now s.stack.reverse s.nextSeq t ht)
      (by rw [hmap]; exact List.nodup_reverse.mpr hnodup)
      (fun t ht => by
        rw [h1s]
        have hmm : jobIdOf t.job ∈ ts.map (fun t => jobIdOf t.job) :=
          List.mem_map_of_mem _ ht
        rw [hmap] at hmm
        exact List.mem_reverse.mp hmm)
      (by rw [h1s]; exact hnodup)
      (by rw [h1m, hkeys]; exact hnodup)
  have hdrop : ∀ (tail : List Ev),
      ((s.events ++ s.stack.reverse.map (fun i => Ev.closeEv i (dataOf s.meta i)))
          ++ tail).drop s.events.length
        = s.stack.reverse.map (fun i => Ev.closeEv i (dataOf s.meta i)) ++ tail := by
    intro tail
    rw [List.append_assoc, List.drop_left]
  refine ⟨?_, ?_, ?_, ?_, ?_⟩
  · rw [h1e, List.drop_left, List.map_map]
    have hcomp : (evId ∘ fun i => Ev.closeEv i (dataOf s.meta i)) = fun i => i := rfl
    rw [hcomp]
    simp
  · rw [h1e, List.drop_left]
    intro ev hev
    obtain ⟨i, _, rfl⟩ := List.mem_map.mp hev
    rfl
  · rw [hdstack, h1s]
    simp only [hmap]
    refine List.filter_eq_nil_iff.mpr ?_
    intro a ha
    simp [List.mem_reverse, ha]
  · apply alKeys_nil_imp
    rw [hdmeta, h1m, hkeys]
    simp only [hmap]
    refine List.filter_eq_nil_iff.mpr ?_
    intro a ha
    simp [List.mem_reverse, ha]
  · intro id hid
    have hdropped : (drainN env s.stack.length
          (s.stack.reverse.foldl (fun st id => close env id st) s)).events.drop
            s.events.length
        = s.stack.reverse.map (fun i => Ev.closeEv i (dataOf s.meta i)) ++ newEvs := by
      rw [hdev, h1e]
      exact hdrop newEvs
    constructor
    · rw [hdropped, List.countP_append]
      have hclose0 : newEvs.countP (isCloseFor id) = 0 := hdclose id
      have hcomp : ((isCloseFor id) ∘ fun i => Ev.closeEv i (dataOf s.meta i))
          = fun i => i == id := rfl
      have hclosecnt : (s.stack.reverse.map
          (fun i => Ev.closeEv i (dataOf s.meta i))).countP (isCloseFor id) = 1 := by
        rw [List.countP_map, hcomp]
        exact List.count_eq_one_of_mem (List.nodup_reverse.mpr hnodup)
          (List.mem_reverse.mpr hid)
      rw [hclosecnt, hclose0]
    · rw [hdropped, List.countP_append]
      have hcomp : ((isClosedFor id) ∘ fun i => Ev.closeEv i (dataOf s.meta i))
          = fun _ => false := rfl
      have hclosed0 : (s.stack.reverse.map
          (fun i => Ev.closeEv i (dataOf s.meta i))).countP (isClosedFor id) = 0 := by
        rw [List.countP_map, hcomp]
        simp
      have hclosed1 : newEvs.countP (isClosedFor id) = 1 := by
        rw [hdclosed id]
        simp only [hmap]
        simp [List.mem_reverse, hid]
      rw [hclosed0, hclosed1]

/-- Witness for C6: the state with "a" then "b" open (both opened, no
pending timer) is well-formed; closeAll followed by draining both timers
empties the stack, and the close requests go out in the order "b","a". -/
theorem claim_C6_witness :
    (drainN env0
        ((run env0 st0 [Act.openA "a" noOpts, Act.fireA, Act.openA "b" noOpts,
          Act.fireA]).stack.length)
        (closeAllStep env0 (run env0 st0 [Act.openA "a" noOpts, Act.fireA,
          Act.openA "b" noOpts, Act.fireA]))).stack = [] ∧
    ((closeAllStep env0 (run env0 st0 [Act.openA "a" noOpts, Act.fireA,
          Act.openA "b" noOpts, Act.fireA])).events.drop
        (run env0 st0 [Act.openA "a" noOpts, Act.fireA, Act.openA "b" noOpts,
          Act.fireA]).events.length).map evId
      = (run env0 st0 [Act.openA "a" noOpts, Act.fireA, Act.openA "b" noOpts,
          Act.fireA]).stack.reverse := by
  have h := claim_C6 env0
    (run env0 st0 [Act.openA "a" noOpts, Act.fireA, Act.openA "b" noOpts, Act.fireA])
    (by decide)
  exact ⟨h.2.2.1, h.1⟩

/-- Witness for C8 amended at the concrete page, modal "a", payload 5. -/
theorem claim_C8_witness :
    (run env0 st0 [Act.openA "a" { data := some (JSVal.vNum 5) }, Act.fireA,
        Act.closeA "a", Act.fireA]).events
      = [Ev.openEv "a" (JSVal.vNum 5), Ev.openedEv "a" (JSVal.vNum 5),
         Ev.closeEv "a" (JSVal.vNum 5), Ev.closedEv "a" (JSVal.vNum 5)] ∧
    (run env0 st0 [Act.openA "a" { data := some (JSVal.vNum 5) }, Act.closeA "a",
        Act.fireA, Act.fireA]).events
      = [Ev.openEv "a" (JSVal.vNum 5), Ev.closeEv "a" (JSVal.vNum 5),
         Ev.openedEv "a" (JSVal.vNum 5), Ev.closedEv "a" (JSVal.vNum 5)] :=
  claim_C8_amended env0 "a" (JSVal.vNum 5) (by decide)

end Modal
